import Mathlib

/-!
Shallow embedding of the CSR construction pipeline from `src/graph.rs` and the
binding-layer graph wrapper from `crates/unladen_swallow/src/graphs/ug.rs`.

Machine integers (`usize`) are modelled as `Nat`; all arrays are `List Nat`.
The parallel placement phase is modelled as a sequential fold over the edge
list: every parallel schedule of the atomic `fetch_add`/`store` pairs is
equivalent to some sequential order of the per-endpoint placement operations,
and the fold realises one such order (the single-worker order).  Code that can
panic (`sort_targets`'s slicing and `split_at_mut`) is modelled with `Option`,
`none` standing for the panic.
-/

namespace GraphCSR

/-- Direction from the input module: `Outgoing`, `Incoming`, `Undirected`. -/
inductive Direction where
  | Outgoing : Direction
  | Incoming : Direction
  | Undirected : Direction
deriving DecidableEq

/-- The CSR struct: `offsets: Box<[usize]>, targets: Box<[usize]>`. -/
structure CSR where
  offsets : List Nat
  targets : List Nat
deriving DecidableEq

/-- `CSR::node_count`: `self.offsets.len() - 1`. -/
def CSR.node_count (g : CSR) : Nat :=
  g.offsets.length - 1

/-- `CSR::edge_count`: `self.targets.len()`. -/
def CSR.edge_count (g : CSR) : Nat :=
  g.targets.length

/-- `CSR::degree`: `self.offsets[node + 1] - self.offsets[node]` (usize subtraction). -/
def CSR.degree (g : CSR) (node : Nat) : Nat :=
  g.offsets.getD (node + 1) 0 - g.offsets.getD node 0

/-- `CSR::neighbors`: `&self.targets[from..to]` with `from = offsets[node]`,
`to = offsets[node + 1]`: the elements at indices `from ≤ j < to`. -/
def CSR.neighbors (g : CSR) (node : Nat) : List Nat :=
  (g.targets.take (g.offsets.getD (node + 1) 0)).drop (g.offsets.getD node 0)

/-- Modelled from the spec: the edge source's degree counting is in the input
module, which is not part of the examined source files.  Per the spec, Outgoing
counts the edges anchored at the node by their source endpoint.  `countSrc el i`
is the number of edges of `el` whose source is `i`. -/
def countSrc (el : List (Nat × Nat)) (i : Nat) : Nat :=
  el.countP (fun e => e.1 == i)

/-- Modelled from the spec: the number of edges of `el` whose target is `i`
(Incoming counts target-anchored endpoints). -/
def countTgt (el : List (Nat × Nat)) (i : Nat) : Nat :=
  el.countP (fun e => e.2 == i)

/-- Modelled from the spec: the degree of node `i` under direction `d`
("Outgoing counts only source-anchored endpoints, Incoming only
target-anchored, Undirected both"; self-loops and parallel edges counted like
any other edge). -/
def cnt (d : Direction) (el : List (Nat × Nat)) (i : Nat) : Nat :=
  match d with
  | .Outgoing => countSrc el i
  | .Incoming => countTgt el i
  | .Undirected => countSrc el i + countTgt el i

/-- Modelled from the spec: `EdgeList::degrees(node_count, direction)` — the
degree array of length `node_count` for the given direction. -/
def degrees (el : List (Nat × Nat)) (node_count : Nat) (d : Direction) : List Nat :=
  (List.range node_count).map (cnt d el)

/-- Helper for `prefix_sum`: the loop body with running total `t`
(`sums[i] = total; total += degree`), followed by `sums[len] = total`. -/
def sumsFrom (t : Nat) : List Nat → List Nat
  | [] => [t]
  | d :: ds => t :: sumsFrom (t + d) ds

/-- `prefix_sum(degrees)` from `graph.rs`: the exclusive scan of length
`degrees.len() + 1`. -/
def prefix_sum (degs : List Nat) : List Nat :=
  sumsFrom 0 degs

/-- One placement operation on the state `(offsets, targets)`: the atomic
`offsets[u].fetch_add(1)` returning the previous value `cur`, then
`targets[cur].store(v)`. -/
def place1 (st : List Nat × List Nat) (u v : Nat) : List Nat × List Nat :=
  (st.1.set u (st.1.getD u 0 + 1), st.2.set (st.1.getD u 0) v)

/-- Placement of one edge `(s, t)` per direction, as in the `match direction`
of `From<(&EdgeList, usize, Direction)> for CSR`. -/
def placeEdge (d : Direction) (st : List Nat × List Nat) (e : Nat × Nat) :
    List Nat × List Nat :=
  match d with
  | .Outgoing => place1 st e.1 e.2
  | .Incoming => place1 st e.2 e.1
  | .Undirected => place1 (place1 st e.1 e.2) e.2 e.1

/-- The whole placement phase: every edge of the list placed, in list order
(one sequentially consistent schedule of the parallel `for_each`). -/
def placeAll (d : Direction) (el : List (Nat × Nat)) (st : List Nat × List Nat) :
    List Nat × List Nat :=
  el.foldl (placeEdge d) st

/-- The unit placement operations `(key, stored value)` an edge contributes:
Outgoing stores `t` keyed by `s`, Incoming stores `s` keyed by `t`,
Undirected does both. -/
def stores (d : Direction) (e : Nat × Nat) : List (Nat × Nat) :=
  match d with
  | .Outgoing => [(e.1, e.2)]
  | .Incoming => [(e.2, e.1)]
  | .Undirected => [(e.1, e.2), (e.2, e.1)]

/-- All unit placement operations of an edge list, in placement order. -/
def opsOf (d : Direction) : List (Nat × Nat) → List (Nat × Nat)
  | [] => []
  | e :: es => stores d e ++ opsOf d es

/-- Placement expressed over the flat list of unit operations. -/
def foldOps (ops : List (Nat × Nat)) (st : List Nat × List Nat) :
    List Nat × List Nat :=
  ops.foldl (fun st p => place1 st p.1 p.2) st

/-- How many unit operations of `ops` are keyed by node `i`. -/
def cntKey (ops : List (Nat × Nat)) (i : Nat) : Nat :=
  ops.countP (fun p => p.1 == i)

/-- The values stored for node `i` by the operations `ops`, in order. -/
def valuesAt (i : Nat) (ops : List (Nat × Nat)) : List Nat :=
  (ops.filter (fun p => p.1 == i)).map (fun p => p.2)

/-- The chunk-splitting loop of `sort_targets`: for each middle offset `o`,
`split_at_mut(o - prev)` peels the next node's sub-range off `tail`.  Returns
the collected chunks and the remaining tail; `none` models a panic of the
usize subtraction or of `split_at_mut`. -/
def chunkBy (mids : List Nat) (prev : Nat) (tail : List Nat) :
    Option (List (List Nat) × List Nat) :=
  match mids with
  | [] => some ([], tail)
  | o :: rest =>
    if prev ≤ o ∧ o - prev ≤ tail.length then
      match chunkBy rest o (tail.drop (o - prev)) with
      | some (cs, t) => some (tail.take (o - prev) :: cs, t)
      | none => none
    else none

/-- `sort_targets(offsets, targets)` from `graph.rs`.  `node_count =
offsets.len() - 1`; the loop runs over `&offsets[1..node_count]` (which panics
when `node_count = 0`, modelled by `none`), collecting `node_count - 1` chunks;
each collected chunk is sorted (`sort_unstable`, i.e. the ascending sorted
permutation), and — as in the source — the final `tail` is never pushed into
`target_chunks`, so it is returned unsorted behind the sorted chunks. -/
def sortTargets (offsets targets : List Nat) : Option (List Nat) :=
  if offsets.length - 1 = 0 then none
  else
    match chunkBy ((offsets.drop 1).take (offsets.length - 1 - 1))
        (offsets.getD 0 0) targets with
    | some (cs, t) => some ((cs.map (List.insertionSort (· ≤ ·))).flatten ++ t)
    | none => none

/-- The offset repair after placement: `offsets.pop(); offsets.insert(0, 0)`. -/
def repair (offsets : List Nat) : List Nat :=
  0 :: offsets.dropLast

/-- `From<(&EdgeList, usize, Direction)> for CSR`: the full construction
pipeline — degrees, prefix sum, placement into a zero-initialised target
buffer of size `offsets[node_count]`, offset repair, per-node sort. -/
def csrFrom (el : List (Nat × Nat)) (node_count : Nat) (d : Direction) :
    Option CSR :=
  let offsets := prefix_sum (degrees el node_count d)
  let targets := List.replicate (offsets.getD node_count 0) 0
  let st := placeAll d el (offsets, targets)
  let offsets2 := repair st.1
  match sortTargets offsets2 st.2 with
  | some ts => some ⟨offsets2, ts⟩
  | none => none

/-- The UndirectedCSRGraph struct: cached counts plus the single CSR. -/
structure UndirectedCSRGraph where
  node_count : Nat
  edge_count : Nat
  edges : CSR
deriving DecidableEq

/-- `UndirectedCSRGraph::new(edges)`: `edge_count = edges.edge_count() / 2`. -/
def UndirectedCSRGraph.new (edges : CSR) : UndirectedCSRGraph :=
  ⟨edges.node_count, edges.edge_count / 2, edges⟩

/-- `UndirectedGraph::degree` for `UndirectedCSRGraph`. -/
def UndirectedCSRGraph.degree (g : UndirectedCSRGraph) (node : Nat) : Nat :=
  g.edges.degree node

/-- `UndirectedGraph::neighbors` for `UndirectedCSRGraph`. -/
def UndirectedCSRGraph.neighbors (g : UndirectedCSRGraph) (node : Nat) : List Nat :=
  g.edges.neighbors node

/-- Modelled from the spec: `EdgeList::max_node_id()` is in the input module,
not part of the examined source; per the spec it reports the maximum node id
seen among the edge pairs. -/
def max_node_id (el : List (Nat × Nat)) : Nat :=
  el.foldl (fun m e => max (max m e.1) e.2) 0

/-- `From<EdgeList> for UndirectedCSRGraph`: `node_count = max_node_id() + 1`,
one Undirected pipeline run. -/
def undirectedFromEdgeList (el : List (Nat × Nat)) : Option UndirectedCSRGraph :=
  match csrFrom el (max_node_id el + 1) .Undirected with
  | some c => some (.new c)
  | none => none

/-- The slice `l[n .. n + k)`, used to state facts about per-node ranges. -/
def slice (n k : Nat) (l : List Nat) : List Nat :=
  (l.drop n).take k

/-- Modelled from the spec: the degree-based relabeling capability
(`RelabelByDegreeOp::to_degree_ordered`) consumed by `ug.rs` is external to
the examined source.  Per the spec, it produces the permutation in which the
node with the largest degree receives id 0 and the smallest id
`node_count - 1`, and rewrites the CSR arrays under that permutation. -/
def to_degree_ordered (c : CSR) : CSR :=
  let order :=
    List.insertionSort (fun a b => c.degree b ≤ c.degree a) (List.range c.node_count)
  let tgts :=
    (order.map (fun o =>
      List.insertionSort (· ≤ ·) ((c.neighbors o).map (fun x => order.indexOf x)))).flatten
  ⟨prefix_sum (order.map c.degree), tgts⟩

/-- The `Ungraph` wrapper of `ug.rs`: the graph held behind an `Arc`, the
number of OTHER live references to its buffers (each outstanding zero-copy
`NeighborsBuffer` view clones the `Arc`), and the recorded load duration in
microseconds. -/
structure Ungraph where
  g : CSR
  other_refs : Nat
  load_micros : Nat
deriving DecidableEq

/-- The exclusivity-violation message built by `concat!` in
`Ungraph::reorder_by_degree`. -/
def exclusivity_err : String :=
  "Graph cannot be reordered because there are references to this graph from neighbor lists."

/-- `Ungraph::reorder_by_degree`: `Arc::get_mut` succeeds exactly when the
caller holds the sole reference (`other_refs = 0`); on failure the error is
returned and nothing is touched; on success the graph is relabeled in place
and `load_micros` becomes `(relabel + load).min(u64::MAX)`.  The result pairs
the returned `PyResult` (`some msg` = the raised error) with the receiver
after the call; `elapsed` is the measured relabel duration. -/
def reorder_by_degree (st : Ungraph) (elapsed : Nat) : Option String × Ungraph :=
  if st.other_refs = 0 then
    (none,
      { g := to_degree_ordered st.g, other_refs := st.other_refs,
        load_micros := min (elapsed + st.load_micros) (2 ^ 64 - 1) })
  else (some exclusivity_err, st)

/-! ### Facts about `prefix_sum` -/

theorem sumsFrom_length (t : Nat) (ds : List Nat) :
    (sumsFrom t ds).length = ds.length + 1 := by
  induction ds generalizing t with
  | nil => rfl
  | cons d ds ih => simp [sumsFrom, ih]

theorem sumsFrom_getD (t : Nat) (ds : List Nat) (i : Nat) (h : i ≤ ds.length) :
    (sumsFrom t ds).getD i 0 = t + (ds.take i).sum := by
  induction ds generalizing t i with
  | nil =>
    have hi : i = 0 := Nat.le_zero.mp h
    subst hi
    simp [sumsFrom]
  | cons d ds ih =>
    cases i with
    | zero => simp [sumsFrom]
    | succ j =>
      have hj : j ≤ ds.length := by simpa using h
      simp only [sumsFrom, List.getD_cons_succ, List.take_succ_cons, List.sum_cons,
        ih (t + d) j hj]
      omega

theorem prefix_sum_length (ds : List Nat) : (prefix_sum ds).length = ds.length + 1 :=
  sumsFrom_length 0 ds

theorem prefix_sum_getD (ds : List Nat) (i : Nat) (h : i ≤ ds.length) :
    (prefix_sum ds).getD i 0 = (ds.take i).sum := by
  simpa using sumsFrom_getD 0 ds i h

theorem prefix_sum_zero (ds : List Nat) : (prefix_sum ds).getD 0 0 = 0 := by
  simpa using prefix_sum_getD ds 0 (Nat.zero_le _)

theorem sum_take_succ_getD (l : List Nat) (i : Nat) (h : i < l.length) :
    (l.take (i + 1)).sum = (l.take i).sum + l.getD i 0 := by
  induction l generalizing i with
  | nil => simp at h
  | cons a l ih =>
    cases i with
    | zero => simp
    | succ j =>
      have hj : j < l.length := by simpa using h
      simp only [List.take_succ_cons, List.sum_cons, List.getD_cons_succ, ih j hj]
      omega

theorem take_sum_mono (l : List Nat) (i j : Nat) (hij : i ≤ j) :
    (l.take i).sum ≤ (l.take j).sum := by
  induction l generalizing i j with
  | nil => simp
  | cons a l ih =>
    cases i with
    | zero => simp
    | succ i' =>
      cases j with
      | zero => omega
      | succ j' =>
        simp only [List.take_succ_cons, List.sum_cons]
        exact Nat.add_le_add_left (ih i' j' (by omega)) a

theorem prefix_sum_mono (ds : List Nat) (i j : Nat) (hij : i ≤ j) (hj : j ≤ ds.length) :
    (prefix_sum ds).getD i 0 ≤ (prefix_sum ds).getD j 0 := by
  rw [prefix_sum_getD ds i (le_trans hij hj), prefix_sum_getD ds j hj]
  exact take_sum_mono ds i j hij

theorem prefix_sum_succ_getD (ds : List Nat) (i : Nat) (h : i < ds.length) :
    (prefix_sum ds).getD (i + 1) 0 = (prefix_sum ds).getD i 0 + ds.getD i 0 := by
  rw [prefix_sum_getD ds (i + 1) h, prefix_sum_getD ds i (le_of_lt h)]
  exact sum_take_succ_getD ds i h

theorem prefix_sum_last (ds : List Nat) :
    (prefix_sum ds).getD ds.length 0 = ds.sum := by
  rw [prefix_sum_getD ds ds.length (le_refl _), List.take_length]

theorem prefix_sum_sorted (ds : List Nat) : List.Sorted (· ≤ ·) (prefix_sum ds) := by
  rw [List.Sorted, List.pairwise_iff_getElem]
  intro i j hi hj hij
  have hlen : (prefix_sum ds).length = ds.length + 1 := prefix_sum_length ds
  rw [← List.getD_eq_getElem _ 0 hi, ← List.getD_eq_getElem _ 0 hj]
  exact prefix_sum_mono ds i j (le_of_lt hij) (by omega)

/-! ### Facts about degrees and the unit placement operations -/

theorem degrees_length (el : List (Nat × Nat)) (nc : Nat) (d : Direction) :
    (degrees el nc d).length = nc := by
  simp [degrees]

theorem degrees_getD (el : List (Nat × Nat)) (nc : Nat) (d : Direction) (i : Nat)
    (h : i < nc) : (degrees el nc d).getD i 0 = cnt d el i := by
  have hlen : i < (degrees el nc d).length := by
    rw [degrees_length]; exact h
  rw [List.getD_eq_getElem _ _ hlen]
  simp [degrees]

theorem cnt_eq_cntKey (d : Direction) (el : List (Nat × Nat)) (i : Nat) :
    cnt d el i = cntKey (opsOf d el) i := by
  induction el with
  | nil => cases d <;> rfl
  | cons e es ih =>
    cases d with
    | Outgoing =>
      simp only [cnt, countSrc, List.countP_cons, List.countP_nil, cntKey, opsOf,
        stores, List.countP_append] at *
      omega
    | Incoming =>
      simp only [cnt, countTgt, List.countP_cons, List.countP_nil, cntKey, opsOf,
        stores, List.countP_append] at *
      omega
    | Undirected =>
      simp only [cnt, countSrc, countTgt, List.countP_cons, List.countP_nil, cntKey,
        opsOf, stores, List.countP_append] at *
      omega

theorem cntKey_cons (p : Nat × Nat) (ops : List (Nat × Nat)) (i : Nat) :
    cntKey (p :: ops) i = cntKey ops i + (if p.1 = i then 1 else 0) := by
  simp [cntKey, List.countP_cons]

theorem cntKey_append (A B : List (Nat × Nat)) (i : Nat) :
    cntKey (A ++ B) i = cntKey A i + cntKey B i := by
  simp [cntKey, List.countP_append]

theorem valuesAt_append (i : Nat) (A B : List (Nat × Nat)) :
    valuesAt i (A ++ B) = valuesAt i A ++ valuesAt i B := by
  simp [valuesAt, List.filter_append]

theorem opsOf_key_lt (d : Direction) (el : List (Nat × Nat)) (nc : Nat)
    (h : ∀ e ∈ el, e.1 < nc ∧ e.2 < nc) : ∀ p ∈ opsOf d el, p.1 < nc := by
  induction el with
  | nil => simp [opsOf]
  | cons e es ih =>
    intro p hp
    have he := h e (List.mem_cons_self _ _)
    have hes : ∀ e ∈ es, e.1 < nc ∧ e.2 < nc :=
      fun x hx => h x (List.mem_cons_of_mem _ hx)
    rw [opsOf, List.mem_append] at hp
    rcases hp with hp | hp
    · cases d <;> simp [stores] at hp <;> first
        | (rcases hp with hp | hp <;> subst hp <;> simp <;> omega)
        | (subst hp; simp; omega)
    · exact ih hes p hp

theorem sum_map_add (l : List Nat) (f g : Nat → Nat) :
    (l.map (fun i => f i + g i)).sum = (l.map f).sum + (l.map g).sum := by
  induction l with
  | nil => simp
  | cons a l ih => simp [ih]; omega

theorem ind_sum_of_ge (nc k : Nat) :
    nc ≤ k → ((List.range nc).map (fun i => if k = i then 1 else 0)).sum = 0 := by
  induction nc with
  | zero => intro _; simp
  | succ n ih =>
    intro h
    rw [List.range_succ, List.map_append, List.sum_append, ih (by omega)]
    have hk : ¬ (k = n) := by omega
    simp [hk]

theorem ind_sum_of_lt (nc k : Nat) :
    k < nc → ((List.range nc).map (fun i => if k = i then 1 else 0)).sum = 1 := by
  induction nc with
  | zero => omega
  | succ n ih =>
    intro h
    rw [List.range_succ, List.map_append, List.sum_append]
    by_cases hk : k = n
    · subst hk
      rw [ind_sum_of_ge k k (le_refl k)]
      simp
    · rw [ih (by omega)]
      simp [hk]

theorem sum_range_cntKey (ops : List (Nat × Nat)) (nc : Nat) :
    (∀ p ∈ ops, p.1 < nc) →
    ((List.range nc).map (cntKey ops)).sum = ops.length := by
  induction ops with
  | nil =>
    intro _
    apply List.sum_eq_zero
    intro x hx
    rw [List.mem_map] at hx
    obtain ⟨i, _, rfl⟩ := hx
    rfl
  | cons p ops ih =>
    intro h
    have h1 : ∀ q ∈ ops, q.1 < nc := fun q hq => h q (List.mem_cons_of_mem _ hq)
    have h2 : p.1 < nc := h p (List.mem_cons_self _ _)
    calc ((List.range nc).map (cntKey (p :: ops))).sum
        = ((List.range nc).map
            (fun i => cntKey ops i + (if p.1 = i then 1 else 0))).sum := by
          refine congrArg List.sum (List.map_congr_left ?_)
          intro i _
          exact cntKey_cons p ops i
      _ = ((List.range nc).map (cntKey ops)).sum +
            ((List.range nc).map (fun i => if p.1 = i then 1 else 0)).sum :=
          sum_map_add _ _ _
      _ = ops.length + 1 := by rw [ih h1, ind_sum_of_lt nc p.1 h2]

      _ = (p :: ops).length := by simp

theorem degrees_sum_eq_ops_length (el : List (Nat × Nat)) (nc : Nat) (d : Direction)
    (h : ∀ e ∈ el, e.1 < nc ∧ e.2 < nc) :
    (degrees el nc d).sum = (opsOf d el).length := by
  have hfun : cnt d el = fun i => cntKey (opsOf d el) i :=
    funext fun i => cnt_eq_cntKey d el i
  rw [degrees, hfun]
  exact sum_range_cntKey (opsOf d el) nc (opsOf_key_lt d el nc h)

theorem opsOf_length_out (el : List (Nat × Nat)) :
    (opsOf .Outgoing el).length = el.length := by
  induction el with
  | nil => rfl
  | cons e es ih => simp [opsOf, stores, ih]

theorem opsOf_length_in (el : List (Nat × Nat)) :
    (opsOf .Incoming el).length = el.length := by
  induction el with
  | nil => rfl
  | cons e es ih => simp [opsOf, stores, ih]

theorem opsOf_length_und (el : List (Nat × Nat)) :
    (opsOf .Undirected el).length = 2 * el.length := by
  induction el with
  | nil => rfl
  | cons e es ih => simp [opsOf, stores, ih]; omega

/-! ### Facts about the placement phase -/

theorem foldOps_stores (d : Direction) (st : List Nat × List Nat) (e : Nat × Nat) :
    foldOps (stores d e) st = placeEdge d st e := by
  cases d <;> rfl

theorem foldOps_append (A B : List (Nat × Nat)) (st : List Nat × List Nat) :
    foldOps (A ++ B) st = foldOps B (foldOps A st) :=
  List.foldl_append _ _ _ _

theorem placeAll_eq_foldOps (d : Direction) (el : List (Nat × Nat))
    (st : List Nat × List Nat) : placeAll d el st = foldOps (opsOf d el) st := by
  induction el generalizing st with
  | nil => rfl
  | cons e es ih =>
    show placeAll d es (placeEdge d st e) = foldOps (opsOf d (e :: es)) st
    rw [opsOf, foldOps_append, foldOps_stores, ih]

theorem foldOps_fst_length (ops : List (Nat × Nat)) (st : List Nat × List Nat) :
    (foldOps ops st).1.length = st.1.length := by
  induction ops generalizing st with
  | nil => rfl
  | cons p ops ih =>
    show (foldOps ops (place1 st p.1 p.2)).1.length = st.1.length
    rw [ih]
    simp [place1]

theorem foldOps_snd_length (ops : List (Nat × Nat)) (st : List Nat × List Nat) :
    (foldOps ops st).2.length = st.2.length := by
  induction ops generalizing st with
  | nil => rfl
  | cons p ops ih =>
    show (foldOps ops (place1 st p.1 p.2)).2.length = st.2.length
    rw [ih]
    simp [place1]

theorem getD_set_self (l : List Nat) (u a : Nat) (h : u < l.length) :
    (l.set u a).getD u 0 = a := by
  rw [List.getD_eq_getElem _ _ (by simpa using h)]
  exact List.getElem_set_self _

theorem getD_set_ne (l : List Nat) (u a i : Nat) (h : u ≠ i) :
    (l.set u a).getD i 0 = l.getD i 0 := by
  rw [List.getD_eq_getElem?_getD, List.getD_eq_getElem?_getD,
    List.getElem?_set_ne h]

theorem foldOps_offsets_getD (ops : List (Nat × Nat)) (st : List Nat × List Nat)
    (i : Nat) (hi : i < st.1.length) :
    (foldOps ops st).1.getD i 0 = st.1.getD i 0 + cntKey ops i := by
  induction ops generalizing st with
  | nil =>
    show st.1.getD i 0 = st.1.getD i 0 + cntKey [] i
    rfl
  | cons p ops ih =>
    show (foldOps ops (place1 st p.1 p.2)).1.getD i 0 = st.1.getD i 0 + cntKey (p :: ops) i
    have hlen : i < (place1 st p.1 p.2).1.length := by simpa [place1] using hi
    rw [ih _ hlen, cntKey_cons]
    by_cases hp : p.1 = i
    · subst hp
      rw [show (place1 st p.1 p.2).1 = st.1.set p.1 (st.1.getD p.1 0 + 1) from rfl,
        getD_set_self st.1 p.1 _ (by omega)]
      simp
      omega
    · rw [show (place1 st p.1 p.2).1 = st.1.set p.1 (st.1.getD p.1 0 + 1) from rfl,
        getD_set_ne st.1 p.1 _ i hp]
      simp [hp]

/-- After placement, cell `i < node_count` of the consumed offset array holds
the original exclusive prefix-sum value of cell `i + 1`. -/
theorem placed_offsets_getD (el : List (Nat × Nat)) (nc : Nat) (d : Direction)
    (tgts : List Nat) (i : Nat) (hi : i < nc) :
    (placeAll d el (prefix_sum (degrees el nc d), tgts)).1.getD i 0 =
      (prefix_sum (degrees el nc d)).getD (i + 1) 0 := by
  rw [placeAll_eq_foldOps,
    foldOps_offsets_getD _ _ i (by rw [prefix_sum_length, degrees_length]; omega),
    prefix_sum_succ_getD _ i (by rw [degrees_length]; omega),
    degrees_getD el nc d i hi, cnt_eq_cntKey]

/-- The repaired offset array equals the original exclusive prefix sums. -/
theorem repaired_offsets (el : List (Nat × Nat)) (nc : Nat) (d : Direction)
    (tgts : List Nat) :
    repair (placeAll d el (prefix_sum (degrees el nc d), tgts)).1 =
      prefix_sum (degrees el nc d) := by
  have hlen : (placeAll d el (prefix_sum (degrees el nc d), tgts)).1.length = nc + 1 := by
    rw [placeAll_eq_foldOps, foldOps_fst_length, prefix_sum_length, degrees_length]
  apply List.ext_getElem
  · simp [repair, hlen, prefix_sum_length, degrees_length]
  · intro n h1 h2
    have hn : n < nc + 1 := by
      rw [prefix_sum_length, degrees_length] at h2
      exact h2
    cases n with
    | zero =>
      show (0 : Nat) = _
      rw [← List.getD_eq_getElem _ 0 h2, prefix_sum_zero]
    | succ m =>
      have hm : m < nc := by omega
      simp only [repair, List.getElem_cons_succ, List.getElem_dropLast]
      rw [← List.getD_eq_getElem _ 0
          (by omega : m < (placeAll d el (prefix_sum (degrees el nc d), tgts)).1.length),
        ← List.getD_eq_getElem _ 0 h2]
      exact placed_offsets_getD el nc d tgts m hm

/-! ### Slice helpers -/

theorem drop_length_add (a b : List Nat) (n : Nat) :
    (a ++ b).drop (a.length + n) = b.drop n := by
  induction a with
  | nil => simp
  | cons x a ih =>
    have hx : (x :: a).length + n = (a.length + n) + 1 := by simp; omega
    rw [hx, List.cons_append, List.drop_succ_cons, ih]

theorem slice_set_outside (l : List Nat) (n k c v : Nat)
    (h : c < n ∨ n + k ≤ c) : slice n k (l.set c v) = slice n k l := by
  apply List.ext_getElem
  · simp [slice]
  · intro j h1 h2
    have hj : j < k := by
      simp [slice] at h1
      omega
    simp only [slice, List.getElem_take, List.getElem_drop]
    exact List.getElem_set_ne (by omega) _

theorem take_succ_set_last (l : List Nat) (k v : Nat) (h : k < l.length) :
    (l.set k v).take (k + 1) = l.take k ++ [v] := by
  induction l generalizing k with
  | nil => simp at h
  | cons a l ih =>
    cases k with
    | zero => simp
    | succ m =>
      have hm : m < l.length := by simpa using h
      simp [List.take_succ_cons, ih m hm]

theorem drop_set_add (l : List Nat) (n k v : Nat) :
    (l.set (n + k) v).drop n = (l.drop n).set k v := by
  induction n generalizing l with
  | zero => simp
  | succ m ih =>
    cases l with
    | nil => simp
    | cons a l =>
      have hx : (m + 1) + k = (m + k) + 1 := by omega
      rw [hx, List.set_cons_succ, List.drop_succ_cons, List.drop_succ_cons, ih]

theorem slice_set_append (l : List Nat) (n k v : Nat) (h : n + k < l.length) :
    slice n (k + 1) (l.set (n + k) v) = slice n k l ++ [v] := by
  rw [slice, slice, drop_set_add]
  exact take_succ_set_last (l.drop n) k v (by simp; omega)

/-! ### Content of the target array after placement -/

theorem cntKey_singleton (u v i : Nat) :
    cntKey [(u, v)] i = if u = i then 1 else 0 := by
  simp [cntKey, List.countP_cons, List.countP_nil]

theorem valuesAt_singleton (u v i : Nat) :
    valuesAt i [(u, v)] = if u = i then [v] else [] := by
  by_cases hui : u = i
  · subst hui
    simp [valuesAt, List.filter]
  · have hb : (u == i) = false := by simpa using hui
    simp [valuesAt, List.filter_cons, hb]
    exact hui

/-- The central placement invariant: folding the remaining unit operations over
a state whose offset cells are the base offsets `K` advanced by the operations
already performed (`P`), and whose target array already holds the values of
`P` in each node's range, ends with every node's full range holding exactly
its stored values, in placement order. -/
theorem content_aux (nc : Nat) (allOps : List (Nat × Nat)) (K : List Nat)
    (hkeys : ∀ p ∈ allOps, p.1 < nc)
    (hK1 : ∀ i, i < nc → K.getD (i + 1) 0 = K.getD i 0 + cntKey allOps i)
    (hKmono : ∀ i j, i ≤ j → j ≤ nc → K.getD i 0 ≤ K.getD j 0) :
    ∀ (rest P : List (Nat × Nat)) (offs tgts : List Nat),
      allOps = P ++ rest →
      offs.length = nc + 1 →
      (∀ i, i < nc → offs.getD i 0 = K.getD i 0 + cntKey P i) →
      tgts.length = K.getD nc 0 →
      (∀ i, i < nc → slice (K.getD i 0) (cntKey P i) tgts = valuesAt i P) →
      ∀ i, i < nc →
        slice (K.getD i 0) (cntKey allOps i) (foldOps rest (offs, tgts)).2 =
          valuesAt i allOps := by
  intro rest
  induction rest with
  | nil =>
    intro P offs tgts hEq hlen hoffs htlen hcont i hi
    rw [List.append_nil] at hEq
    subst hEq
    exact hcont i hi
  | cons q rest ih =>
    intro P offs tgts hEq hlen hoffs htlen hcont i hi
    obtain ⟨u, v⟩ := q
    have huv : (u, v) ∈ allOps := by
      rw [hEq]
      exact List.mem_append_right _ (List.mem_cons_self _ _)
    have hu : u < nc := hkeys _ huv
    have hsplit : cntKey allOps u = cntKey P u + (cntKey rest u + 1) := by
      rw [hEq, cntKey_append, cntKey_cons]
      simp
    have hc : offs.getD u 0 = K.getD u 0 + cntKey P u := hoffs u hu
    have hcbound : K.getD u 0 + cntKey P u < K.getD nc 0 := by
      have h1 : K.getD u 0 + cntKey P u < K.getD (u + 1) 0 := by
        rw [hK1 u hu]
        omega
      have h2 : K.getD (u + 1) 0 ≤ K.getD nc 0 :=
        hKmono (u + 1) nc (by omega) (le_refl nc)
      omega
    show slice _ _ (foldOps rest (place1 (offs, tgts) u v)).2 = _
    have hplace : place1 (offs, tgts) u v =
        (offs.set u (offs.getD u 0 + 1), tgts.set (offs.getD u 0) v) := rfl
    rw [hplace]
    apply ih (P ++ [(u, v)]) _ _ ?_ ?_ ?_ ?_ ?_ i hi
    · rw [hEq, List.append_assoc, List.singleton_append]
    · simp [hlen]
    · intro j hj
      rw [cntKey_append, cntKey_singleton]
      by_cases huj : u = j
      · subst huj
        rw [getD_set_self offs u _ (by omega), hc]
        simp
        omega
      · rw [getD_set_ne offs u _ j huj, hoffs j hj]
        simp [huj]
    · simp [htlen]
    · intro j hj
      rw [cntKey_append, cntKey_singleton, valuesAt_append, valuesAt_singleton]
      by_cases huj : u = j
      · subst huj
        have h1f : (if u = u then 1 else 0) = 1 := if_pos rfl
        have h2f : (if u = u then [v] else []) = [v] := if_pos rfl
        rw [h1f, h2f, hc, slice_set_append tgts _ _ v (by omega), hcont u hu]
      · have h1f : (if u = j then 1 else 0) = 0 := if_neg huj
        have h2f : (if u = j then [v] else []) = [] := if_neg huj
        rw [h1f, h2f, Nat.add_zero, List.append_nil]
        have hout : offs.getD u 0 < K.getD j 0 ∨
            K.getD j 0 + cntKey P j ≤ offs.getD u 0 := by
          rcases Nat.lt_or_ge u j with hlt | hge
          · left
            have h1 : offs.getD u 0 < K.getD (u + 1) 0 := by
              rw [hc, hK1 u hu]
              omega
            have h2 : K.getD (u + 1) 0 ≤ K.getD j 0 :=
              hKmono (u + 1) j (by omega) (by omega)
            omega
          · right
            have hjlt : j < u := by omega
            have h1 : cntKey P j ≤ cntKey allOps j := by
              rw [hEq, cntKey_append]
              omega
            have h2 : K.getD j 0 + cntKey allOps j = K.getD (j + 1) 0 :=
              (hK1 j hj).symm
            have h3 : K.getD (j + 1) 0 ≤ K.getD u 0 :=
              hKmono (j + 1) u (by omega) (by omega)
            rw [hc]
            omega
        rw [slice_set_outside tgts _ _ _ v hout]
        exact hcont j hj

/-- After the full placement phase, node `i`'s range of the target array holds
exactly the values stored for it, in placement order. -/
theorem placed_content (el : List (Nat × Nat)) (nc : Nat) (d : Direction)
    (hids : ∀ e ∈ el, e.1 < nc ∧ e.2 < nc) (i : Nat) (hi : i < nc) :
    slice ((prefix_sum (degrees el nc d)).getD i 0) (cnt d el i)
      (placeAll d el (prefix_sum (degrees el nc d),
        List.replicate ((prefix_sum (degrees el nc d)).getD nc 0) 0)).2 =
      valuesAt i (opsOf d el) := by
  rw [placeAll_eq_foldOps, cnt_eq_cntKey]
  have hdeg : ∀ j, j < nc → (degrees el nc d).getD j 0 = cntKey (opsOf d el) j := by
    intro j hj
    rw [degrees_getD el nc d j hj, cnt_eq_cntKey]
  apply content_aux nc (opsOf d el) (prefix_sum (degrees el nc d))
    (opsOf_key_lt d el nc hids) ?_ ?_ (opsOf d el) [] _ _ rfl ?_ ?_ ?_ ?_ i hi
  · intro j hj
    rw [prefix_sum_succ_getD _ j (by rw [degrees_length]; omega), hdeg j hj]
  · intro a b hab hb
    exact prefix_sum_mono _ a b hab (by rw [degrees_length]; omega)
  · rw [prefix_sum_length, degrees_length]
  · intro j hj
    show _ = _ + cntKey [] j
    rfl
  · simp
  · intro j hj
    show slice _ 0 _ = valuesAt j []
    simp [slice, valuesAt]

/-! ### Analysis of `sort_targets` -/

theorem chunkBy_join : ∀ (mids : List Nat) (prev : Nat) (tail : List Nat)
    (cs : List (List Nat)) (t : List Nat),
    chunkBy mids prev tail = some (cs, t) → cs.flatten ++ t = tail := by
  intro mids
  induction mids with
  | nil =>
    intro prev tail cs t h
    simp [chunkBy] at h
    obtain ⟨rfl, rfl⟩ := h
    simp
  | cons o rest ih =>
    intro prev tail cs t h
    simp only [chunkBy] at h
    by_cases hc : prev ≤ o ∧ o - prev ≤ tail.length
    · rw [if_pos hc] at h
      cases hrec : chunkBy rest o (tail.drop (o - prev)) with
      | none => rw [hrec] at h; simp at h
      | some p =>
        obtain ⟨cs2, t2⟩ := p
        rw [hrec] at h
        simp at h
        obtain ⟨h1, h2⟩ := h
        subst h1
        subst h2
        have hjoin := ih o (tail.drop (o - prev)) cs2 t2 hrec
        rw [List.flatten_cons, List.append_assoc, hjoin, List.take_append_drop]
    · rw [if_neg hc] at h
      simp at h

theorem sortTargets_length (offs tgts ts : List Nat)
    (h : sortTargets offs tgts = some ts) : ts.length = tgts.length := by
  simp only [sortTargets] at h
  by_cases h0 : offs.length - 1 = 0
  · rw [if_pos h0] at h
    simp at h
  · rw [if_neg h0] at h
    cases hc : chunkBy ((offs.drop 1).take (offs.length - 1 - 1))
        (offs.getD 0 0) tgts with
    | none => rw [hc] at h; simp at h
    | some p =>
      obtain ⟨cs, t⟩ := p
      rw [hc] at h
      simp at h
      subst h
      have hj := chunkBy_join _ _ _ _ _ hc
      have hlen : ((cs.map (List.insertionSort (· ≤ ·))).flatten).length =
          cs.flatten.length := by
        rw [List.length_flatten, List.length_flatten, List.map_map]
        refine congrArg List.sum (List.map_congr_left ?_)
        intro x _
        simp [List.length_insertionSort]
      rw [List.length_append, hlen, ← List.length_append, hj]

theorem sortTargets_some_pos (offs tgts ts : List Nat)
    (h : sortTargets offs tgts = some ts) : offs.length - 1 ≠ 0 := by
  intro h0
  simp only [sortTargets, if_pos h0] at h
  exact Option.noConfusion h

/-- Inversion of a successful pipeline run: the offsets of the result are the
prefix sums, and the targets are the sorted form of the placed buffer. -/
theorem csrFrom_inv (el : List (Nat × Nat)) (nc : Nat) (d : Direction) (g : CSR)
    (h : csrFrom el nc d = some g) :
    g.offsets = prefix_sum (degrees el nc d) ∧
    sortTargets (prefix_sum (degrees el nc d))
      (placeAll d el (prefix_sum (degrees el nc d),
        List.replicate ((prefix_sum (degrees el nc d)).getD nc 0) 0)).2 =
      some g.targets := by
  simp only [csrFrom] at h
  rw [repaired_offsets el nc d] at h
  cases hst : sortTargets (prefix_sum (degrees el nc d))
      (placeAll d el (prefix_sum (degrees el nc d),
        List.replicate ((prefix_sum (degrees el nc d)).getD nc 0) 0)).2 with
  | none => rw [hst] at h; simp at h
  | some ts =>
    rw [hst] at h
    simp at h
    subst h
    exact ⟨rfl, rfl⟩

theorem csrFrom_nc_pos (el : List (Nat × Nat)) (nc : Nat) (d : Direction) (g : CSR)
    (h : csrFrom el nc d = some g) : 1 ≤ nc := by
  obtain ⟨_, hs⟩ := csrFrom_inv el nc d g h
  have := sortTargets_some_pos _ _ _ hs
  rw [prefix_sum_length, degrees_length] at this
  omega

theorem csrFrom_targets_length (el : List (Nat × Nat)) (nc : Nat) (d : Direction)
    (g : CSR) (h : csrFrom el nc d = some g) :
    g.targets.length = (degrees el nc d).sum := by
  obtain ⟨ho, hs⟩ := csrFrom_inv el nc d g h
  have h1 := sortTargets_length _ _ _ hs
  rw [placeAll_eq_foldOps, foldOps_snd_length] at h1
  simp only [List.length_replicate] at h1
  rw [h1]
  have h2 := prefix_sum_last (degrees el nc d)
  rw [degrees_length] at h2
  exact h2

/-! ### Per-node content of the final target array -/

theorem getD_map_length (CS : List (List Nat)) (j : Nat) (h : j < CS.length) :
    (CS.map List.length).getD j 0 = (CS.getD j []).length := by
  rw [List.getD_eq_getElem _ _ (by simpa using h), List.getD_eq_getElem _ _ h,
    List.getElem_map]

theorem getD_map_list (f : List Nat → List Nat) (cs : List (List Nat)) (j : Nat)
    (h : j < cs.length) : (cs.map f).getD j [] = f (cs.getD j []) := by
  rw [List.getD_eq_getElem _ _ (by simpa using h), List.getD_eq_getElem _ _ h,
    List.getElem_map]

theorem slice_length (n k : Nat) (l : List Nat) (h : n + k ≤ l.length) :
    (slice n k l).length = k := by
  simp [slice]
  omega

theorem valuesAt_length (i : Nat) (ops : List (Nat × Nat)) :
    (valuesAt i ops).length = cntKey ops i := by
  simp [valuesAt, cntKey, List.countP_eq_length_filter]

theorem getD_take (l : List Nat) (n j : Nat) (hj : j < n) (hl : j < l.length) :
    (l.take n).getD j 0 = l.getD j 0 := by
  rw [List.getD_eq_getElem _ _ (by simp; omega), List.getD_eq_getElem _ _ hl,
    List.getElem_take]

theorem cons_head_take (l : List Nat) (n : Nat) (hl : l ≠ []) (hn : 1 ≤ n) :
    l.getD 0 0 :: (l.drop 1).take (n - 1) = l.take n := by
  cases l with
  | nil => exact absurd rfl hl
  | cons a l2 =>
    cases n with
    | zero => omega
    | succ m => simp [List.take_succ_cons]

theorem getLastD_eq_or_mem (l : List Nat) (a : Nat) :
    l.getLastD a = a ∨ l.getLastD a ∈ l := by
  induction l generalizing a with
  | nil => left; rfl
  | cons b l ih =>
    rw [List.getLastD_cons]
    rcases ih b with h | h
    · right
      rw [h]
      exact List.mem_cons_self _ _
    · right
      exact List.mem_cons_of_mem _ h

theorem getLastD_eq_getD (l : List Nat) (d : Nat) (hl : l ≠ []) :
    l.getLastD d = l.getD (l.length - 1) d := by
  induction l generalizing d with
  | nil => exact absurd rfl hl
  | cons a l ih =>
    rw [List.getLastD_cons]
    cases l with
    | nil => rfl
    | cons b l2 =>
      rw [ih a (by simp)]
      have hlen : (b :: l2).length - 1 = l2.length := by simp
      have hlen2 : (a :: b :: l2).length - 1 = l2.length + 1 := by simp
      rw [hlen, hlen2, List.getD_cons_succ]
      have hidx : l2.length < (b :: l2).length := by simp
      rw [List.getD_eq_getElem _ _ hidx, List.getD_eq_getElem _ _ hidx]

theorem prefix_sum_mem_le (ds : List Nat) (x : Nat) (hx : x ∈ prefix_sum ds) :
    x ≤ (prefix_sum ds).getD ds.length 0 := by
  rw [List.mem_iff_getElem] at hx
  obtain ⟨j, hj, rfl⟩ := hx
  rw [← List.getD_eq_getElem _ 0 hj]
  exact prefix_sum_mono ds j ds.length
    (by rw [prefix_sum_length] at hj; omega) (le_refl _)

theorem flatten_slice : ∀ (CS : List (List Nat)) (j : Nat), j < CS.length →
    slice (((CS.take j).map List.length).sum) ((CS.getD j []).length) CS.flatten =
      CS.getD j [] := by
  intro CS
  induction CS with
  | nil =>
    intro j h
    simp at h
  | cons c CS ih =>
    intro j h
    cases j with
    | zero =>
      simp only [List.take_zero, List.map_nil, List.sum_nil, List.getD_cons_zero,
        List.flatten_cons, slice, List.drop_zero]
      exact List.take_left c CS.flatten
    | succ m =>
      have hm : m < CS.length := by simpa using h
      have ihm := ih m hm
      simp only [List.take_succ_cons, List.map_cons, List.sum_cons, List.getD_cons_succ,
        List.flatten_cons, slice] at ihm ⊢
      rw [drop_length_add]
      exact ihm

theorem sum_take_lengths (CS : List (List Nat)) (K : List Nat) (nc : Nat)
    (hCS : CS.length = nc)
    (hlens : ∀ j, j < nc → (CS.getD j []).length = K.getD (j + 1) 0 - K.getD j 0)
    (hmono : ∀ j, j < nc → K.getD j 0 ≤ K.getD (j + 1) 0)
    (hK0 : K.getD 0 0 = 0) :
    ∀ i, i ≤ nc → ((CS.take i).map List.length).sum = K.getD i 0 := by
  intro i
  induction i with
  | zero =>
    intro _
    simp only [List.take_zero, List.map_nil, List.sum_nil]
    exact hK0.symm
  | succ m ihm =>
    intro h
    have hm : m < nc := by omega
    have hstep : ((CS.take (m + 1)).map List.length).sum =
        ((CS.take m).map List.length).sum + (CS.getD m []).length := by
      rw [List.map_take, List.map_take,
        sum_take_succ_getD _ m (by rw [List.length_map, hCS]; omega),
        getD_map_length CS m (by omega)]
    rw [hstep, ihm (by omega), hlens m hm]
    have := hmono m hm
    omega

theorem chunkBy_spec : ∀ (mids : List Nat) (prev : Nat) (tail : List Nat),
    List.Sorted (· ≤ ·) (prev :: mids) →
    (∀ m ∈ mids, m ≤ prev + tail.length) →
    ∃ cs, chunkBy mids prev tail = some (cs, tail.drop (mids.getLastD prev - prev)) ∧
      cs.length = mids.length ∧
      ∀ j, j < mids.length →
        cs.getD j [] =
          slice ((prev :: mids).getD j 0 - prev)
            ((prev :: mids).getD (j + 1) 0 - (prev :: mids).getD j 0) tail := by
  intro mids
  induction mids with
  | nil =>
    intro prev tail _ _
    refine ⟨[], ?_, rfl, ?_⟩
    · simp [chunkBy, Nat.sub_self]
    · intro j hj
      simp at hj
  | cons o rest ih =>
    intro prev tail hsort hbound
    have hpo : prev ≤ o := (List.sorted_cons.mp hsort).1 o (List.mem_cons_self _ _)
    have hobound : o ≤ prev + tail.length := hbound o (List.mem_cons_self _ _)
    have hcond : prev ≤ o ∧ o - prev ≤ tail.length := ⟨hpo, by omega⟩
    have hsort2 : List.Sorted (· ≤ ·) (o :: rest) := (List.sorted_cons.mp hsort).2
    have horest : ∀ m ∈ rest, o ≤ m := (List.sorted_cons.mp hsort2).1
    have hbound2 : ∀ m ∈ rest, m ≤ o + (tail.drop (o - prev)).length := by
      intro m hm
      have h1 := hbound m (List.mem_cons_of_mem _ hm)
      rw [List.length_drop]
      omega
    obtain ⟨cs2, heq, hlen2, hchunks⟩ := ih o (tail.drop (o - prev)) hsort2 hbound2
    refine ⟨tail.take (o - prev) :: cs2, ?_, by simp [hlen2], ?_⟩
    · simp only [chunkBy, if_pos hcond, heq]
      rw [List.drop_drop, List.getLastD_cons]
      have hle : o ≤ rest.getLastD o := by
        rcases getLastD_eq_or_mem rest o with hcase | hcase
        · rw [hcase]
        · exact horest _ hcase
      have harith : (o - prev) + (rest.getLastD o - o) = rest.getLastD o - prev := by
        omega
      rw [harith]
    · intro j hj
      cases j with
      | zero =>
        simp [slice, Nat.sub_self]
      | succ m =>
        have hm : m < rest.length := by simpa using hj
        have hch := hchunks m hm
        simp only [List.getD_cons_succ]
        rw [hch]
        simp only [slice]
        rw [List.drop_drop]
        have hom : o ≤ (o :: rest).getD m 0 := by
          cases m with
          | zero => simp
          | succ m2 =>
            rw [List.getD_cons_succ]
            have hm2 : m2 < rest.length := by omega
            have hmem : rest.getD m2 0 ∈ rest := by
              rw [List.getD_eq_getElem _ _ hm2]
              exact List.getElem_mem _
            exact horest _ hmem
        have harith : (o - prev) + ((o :: rest).getD m 0 - o) =
            (o :: rest).getD m 0 - prev := by
          omega
        rw [harith, List.getD_cons_succ]

theorem getD_append_left (A B : List (List Nat)) (j : Nat) (h : j < A.length) :
    (A ++ B).getD j [] = A.getD j [] := by
  induction A generalizing j with
  | nil => simp at h
  | cons c A ih =>
    cases j with
    | zero => rfl
    | succ m =>
      simp only [List.cons_append, List.getD_cons_succ]
      exact ih m (by simpa using h)

theorem getD_append_at_length (A : List (List Nat)) (t : List Nat) :
    (A ++ [t]).getD A.length [] = t := by
  induction A with
  | nil => rfl
  | cons c A ih =>
    simp only [List.cons_append, List.length_cons, List.getD_cons_succ]
    exact ih

/-- The per-node content of the final target array of a successful build: for
every node `i`, the range `targets[offsets[i] .. offsets[i] + degree(i))`
holds the values placed for node `i` — sorted ascending for every node except
the last one, whose chunk `sort_targets` forgets, so it keeps its placement
order. -/
theorem csrFrom_content (el : List (Nat × Nat)) (nc : Nat) (d : Direction) (g : CSR)
    (hids : ∀ e ∈ el, e.1 < nc ∧ e.2 < nc) (h : csrFrom el nc d = some g) :
    ∀ i, i < nc →
      slice (g.offsets.getD i 0) (cnt d el i) g.targets =
        if i + 1 < nc then List.insertionSort (· ≤ ·) (valuesAt i (opsOf d el))
        else valuesAt i (opsOf d el) := by
  obtain ⟨ho, hs⟩ := csrFrom_inv el nc d g h
  have hncpos : 1 ≤ nc := csrFrom_nc_pos el nc d g h
  have hKlen : (prefix_sum (degrees el nc d)).length = nc + 1 := by
    rw [prefix_sum_length, degrees_length]
  have hK0 : (prefix_sum (degrees el nc d)).getD 0 0 = 0 := prefix_sum_zero _
  have hKmono : ∀ a b, a ≤ b → b ≤ nc →
      (prefix_sum (degrees el nc d)).getD a 0 ≤
        (prefix_sum (degrees el nc d)).getD b 0 := by
    intro a b hab hb
    exact prefix_sum_mono _ a b hab (by rw [degrees_length]; omega)
  have hKd : ∀ j, j < nc →
      (prefix_sum (degrees el nc d)).getD (j + 1) 0 -
        (prefix_sum (degrees el nc d)).getD j 0 = cnt d el j := by
    intro j hj
    rw [prefix_sum_succ_getD _ j (by rw [degrees_length]; omega),
      degrees_getD el nc d j hj]
    omega
  have htlen : (placeAll d el (prefix_sum (degrees el nc d),
      List.replicate ((prefix_sum (degrees el nc d)).getD nc 0) 0)).2.length =
      (prefix_sum (degrees el nc d)).getD nc 0 := by
    rw [placeAll_eq_foldOps, foldOps_snd_length, List.length_replicate]
  simp only [sortTargets] at hs
  rw [hKlen] at hs
  rw [if_neg (by omega)] at hs
  have harg : nc + 1 - 1 - 1 = nc - 1 := by omega
  rw [harg, hK0] at hs
  have hKne : prefix_sum (degrees el nc d) ≠ [] := by
    intro hh
    rw [hh] at hKlen
    simp at hKlen
  have hB : (0 : Nat) :: ((prefix_sum (degrees el nc d)).drop 1).take (nc - 1) =
      (prefix_sum (degrees el nc d)).take nc := by
    rw [← hK0]
    exact cons_head_take _ nc hKne hncpos
  have hsorted : List.Sorted (· ≤ ·)
      ((0 : Nat) :: ((prefix_sum (degrees el nc d)).drop 1).take (nc - 1)) := by
    rw [hB]
    exact List.Pairwise.sublist (List.take_sublist _ _) (prefix_sum_sorted _)
  have hmlen : (((prefix_sum (degrees el nc d)).drop 1).take (nc - 1)).length =
      nc - 1 := by
    rw [List.length_take, List.length_drop, hKlen]
    omega
  have hbounds : ∀ m ∈ ((prefix_sum (degrees el nc d)).drop 1).take (nc - 1),
      m ≤ 0 + (placeAll d el (prefix_sum (degrees el nc d),
        List.replicate ((prefix_sum (degrees el nc d)).getD nc 0) 0)).2.length := by
    intro m hm
    have hsub : (((prefix_sum (degrees el nc d)).drop 1).take (nc - 1)).Sublist
        (prefix_sum (degrees el nc d)) :=
      (List.take_sublist _ _).trans (List.drop_sublist _ _)
    have hmem : m ∈ prefix_sum (degrees el nc d) := hsub.subset hm
    have hle := prefix_sum_mem_le (degrees el nc d) m hmem
    rw [degrees_length] at hle
    rw [htlen]
    omega
  obtain ⟨cs, hceq, hclen, hchunks⟩ := chunkBy_spec
    (((prefix_sum (degrees el nc d)).drop 1).take (nc - 1)) 0
    (placeAll d el (prefix_sum (degrees el nc d),
      List.replicate ((prefix_sum (degrees el nc d)).getD nc 0) 0)).2 hsorted hbounds
  rw [hceq] at hs
  simp only [Option.some.injEq] at hs
  have hjoin := chunkBy_join _ _ _ _ _ hceq
  generalize hTdef : (placeAll d el (prefix_sum (degrees el nc d),
      List.replicate ((prefix_sum (degrees el nc d)).getD nc 0) 0)).2.drop
      ((((prefix_sum (degrees el nc d)).drop 1).take (nc - 1)).getLastD 0 - 0) =
      T at hs hjoin
  have hclen2 : cs.length = nc - 1 := by rw [hclen, hmlen]
  have hBj : ∀ a, a < nc →
      ((0 : Nat) :: ((prefix_sum (degrees el nc d)).drop 1).take (nc - 1)).getD a 0 =
      (prefix_sum (degrees el nc d)).getD a 0 := by
    intro a ha
    rw [hB]
    exact getD_take _ nc a ha (by rw [hKlen]; omega)
  have hchunkK : ∀ j, j < nc - 1 →
      cs.getD j [] = slice ((prefix_sum (degrees el nc d)).getD j 0) (cnt d el j)
        (placeAll d el (prefix_sum (degrees el nc d),
          List.replicate ((prefix_sum (degrees el nc d)).getD nc 0) 0)).2 := by
    intro j hj
    have hj2 : j < (((prefix_sum (degrees el nc d)).drop 1).take (nc - 1)).length := by
      rw [hmlen]
      omega
    have hc := hchunks j hj2
    rw [hBj j (by omega), hBj (j + 1) (by omega), Nat.sub_zero, hKd j (by omega)] at hc
    exact hc
  have hplaced : ∀ j, j < nc →
      slice ((prefix_sum (degrees el nc d)).getD j 0) (cnt d el j)
        (placeAll d el (prefix_sum (degrees el nc d),
          List.replicate ((prefix_sum (degrees el nc d)).getD nc 0) 0)).2 =
      valuesAt j (opsOf d el) := fun j hj => placed_content el nc d hids j hj
  have hchunklen : ∀ j, j < nc - 1 → (cs.getD j []).length =
      (prefix_sum (degrees el nc d)).getD (j + 1) 0 -
        (prefix_sum (degrees el nc d)).getD j 0 := by
    intro j hj
    rw [hchunkK j hj, slice_length _ _ _ ?_, ← hKd j (by omega)]
    have h1 := hKd j (by omega)
    have h2 := hKmono j (j + 1) (by omega) (by omega)
    have h3 := hKmono (j + 1) nc (by omega) (le_refl _)
    rw [htlen]
    omega
  have hcsflat : cs.flatten.length = (prefix_sum (degrees el nc d)).getD (nc - 1) 0 := by
    rw [List.length_flatten]
    have htake : cs.take (nc - 1) = cs := by
      rw [← hclen2]
      exact List.take_length cs
    have hsum := sum_take_lengths cs (prefix_sum (degrees el nc d)) (nc - 1) hclen2
      hchunklen (fun j hj => hKmono j (j + 1) (by omega) (by omega)) hK0
      (nc - 1) (le_refl _)
    rw [htake] at hsum
    exact hsum
  have hTeq : T = (placeAll d el (prefix_sum (degrees el nc d),
      List.replicate ((prefix_sum (degrees el nc d)).getD nc 0) 0)).2.drop
      ((prefix_sum (degrees el nc d)).getD (nc - 1) 0) := by
    have h1 : (cs.flatten ++ T).drop cs.flatten.length = T := List.drop_left _ _
    rw [hjoin] at h1
    rw [← h1, hcsflat]
  have hTlen : T.length = cnt d el (nc - 1) := by
    rw [hTeq, List.length_drop, htlen]
    have h1 := hKd (nc - 1) (by omega)
    have h2 : nc - 1 + 1 = nc := by omega
    rw [h2] at h1
    omega
  have hTvals : T = valuesAt (nc - 1) (opsOf d el) := by
    have hslice : slice ((prefix_sum (degrees el nc d)).getD (nc - 1) 0)
        (cnt d el (nc - 1))
        (placeAll d el (prefix_sum (degrees el nc d),
          List.replicate ((prefix_sum (degrees el nc d)).getD nc 0) 0)).2 = T := by
      rw [slice, ← hTeq, ← hTlen, List.take_length]
    rw [← hslice]
    exact hplaced (nc - 1) (by omega)
  have hflat : g.targets =
      (cs.map (List.insertionSort (· ≤ ·)) ++ [T]).flatten := by
    rw [← hs]
    simp
  have hCSlen : (cs.map (List.insertionSort (· ≤ ·)) ++ [T]).length = nc := by
    simp [hclen2]
    omega
  have hCSd : ∀ j, j < nc - 1 →
      (cs.map (List.insertionSort (· ≤ ·)) ++ [T]).getD j [] =
        List.insertionSort (· ≤ ·) (valuesAt j (opsOf d el)) := by
    intro j hj
    rw [getD_append_left _ _ j (by simp [hclen2]; omega),
      getD_map_list _ _ j (by omega),
      hchunkK j hj, hplaced j (by omega)]
  have hCSlast : (cs.map (List.insertionSort (· ≤ ·)) ++ [T]).getD (nc - 1) [] =
      T := by
    have hml : (cs.map (List.insertionSort (· ≤ ·))).length = nc - 1 := by
      simp [hclen2]
    rw [← hml]
    exact getD_append_at_length _ _
  have hCSlens : ∀ j, j < nc →
      ((cs.map (List.insertionSort (· ≤ ·)) ++ [T]).getD j []).length =
        (prefix_sum (degrees el nc d)).getD (j + 1) 0 -
          (prefix_sum (degrees el nc d)).getD j 0 := by
    intro j hj
    by_cases hjl : j < nc - 1
    · rw [hCSd j hjl, List.length_insertionSort, valuesAt_length,
        ← cnt_eq_cntKey, ← hKd j hj]
    · have hje : j = nc - 1 := by omega
      subst hje
      rw [hCSlast, hTlen, ← hKd (nc - 1) hj]
  have hsums := sum_take_lengths (cs.map (List.insertionSort (· ≤ ·)) ++ [T])
    (prefix_sum (degrees el nc d)) nc hCSlen hCSlens
    (fun j hj => hKmono j (j + 1) (by omega) (by omega)) hK0
  intro i hi
  rw [ho, hflat]
  have hfs := flatten_slice (cs.map (List.insertionSort (· ≤ ·)) ++ [T]) i
    (by rw [hCSlen]; omega)
  rw [hsums i (by omega), hCSlens i hi, hKd i hi] at hfs
  rw [hfs]
  by_cases hil : i + 1 < nc
  · rw [if_pos hil]
    exact hCSd i (by omega)
  · rw [if_neg hil]
    have hie : i = nc - 1 := by omega
    subst hie
    rw [hCSlast, hTvals]

/-- C1 (code bug): the spec claims every node's sub-range
`targets[offsets[i] .. offsets[i+1]]` is sorted ascending, but `sort_targets`
never pushes the final `tail` chunk into `target_chunks`, so the last node's
range is left unsorted.  Building from edges `[(2,1), (2,0)]` with 3 nodes,
Outgoing, yields `targets = [1, 0]`: node 2's range is `[1, 0]`, not sorted. -/
theorem last_chunk_left_unsorted :
    csrFrom [(2, 1), (2, 0)] 3 .Outgoing = some ⟨[0, 0, 0, 2], [1, 0]⟩ ∧
    CSR.neighbors ⟨[0, 0, 0, 2], [1, 0]⟩ 2 = [1, 0] ∧
    decide (List.Sorted (· ≤ ·) (CSR.neighbors ⟨[0, 0, 0, 2], [1, 0]⟩ 2)) = false := by
  refine ⟨by decide, by decide, by decide⟩

/-- C2 (code bug): the round trip over undirected edges `{(0,1),(1,2),(2,0)}`
gives the claimed node count, edge count, `neighbors(0)` and `neighbors(1)`,
but `neighbors(2) = [1, 0]`, not the claimed `[0, 1]`: node 2 is the last node
and `sort_targets` never sorts the final chunk. -/
theorem round_trip_last_neighbors_unsorted :
    undirectedFromEdgeList [(0, 1), (1, 2), (2, 0)] =
      some ⟨3, 3, ⟨[0, 2, 4, 6], [1, 2, 0, 2, 1, 0]⟩⟩ ∧
    UndirectedCSRGraph.neighbors ⟨3, 3, ⟨[0, 2, 4, 6], [1, 2, 0, 2, 1, 0]⟩⟩ 0 = [1, 2] ∧
    UndirectedCSRGraph.neighbors ⟨3, 3, ⟨[0, 2, 4, 6], [1, 2, 0, 2, 1, 0]⟩⟩ 1 = [0, 2] ∧
    UndirectedCSRGraph.neighbors ⟨3, 3, ⟨[0, 2, 4, 6], [1, 2, 0, 2, 1, 0]⟩⟩ 2 = [1, 0] ∧
    (UndirectedCSRGraph.neighbors ⟨3, 3, ⟨[0, 2, 4, 6], [1, 2, 0, 2, 1, 0]⟩⟩ 2 ==
      [0, 1]) = false := by
  refine ⟨by decide, by decide, by decide, by decide, by decide⟩

/-- C3 (code bug): the final arrays are claimed byte-identical regardless of
the order in which edges are processed, but the last node's chunk is never
sorted, so its entries keep their placement order.  The same two-edge source
processed in its two possible orders yields target arrays `[0, 1]` and
`[1, 0]`. -/
theorem output_depends_on_processing_order :
    List.Perm [(2, 0), (2, 1)] [((2 : Nat), (1 : Nat)), (2, 0)] ∧
    csrFrom [(2, 0), (2, 1)] 3 .Outgoing = some ⟨[0, 0, 0, 2], [0, 1]⟩ ∧
    csrFrom [(2, 1), (2, 0)] 3 .Outgoing = some ⟨[0, 0, 0, 2], [1, 0]⟩ ∧
    (([0, 1] : List Nat) == [1, 0]) = false := by
  refine ⟨by decide, by decide, by decide, by decide⟩

/-- C5 (code bug): building from an empty input with `node_count = 0` is
claimed to succeed with `offsets = [0]`, `targets = []`, but `sort_targets`
slices `&offsets[1..node_count] = &offsets[1..0]`, which panics (start index
past end index); the panic is modelled by `none`. -/
theorem empty_input_panics :
    csrFrom [] 0 .Outgoing = none ∧
    csrFrom [] 0 .Incoming = none ∧
    csrFrom [] 0 .Undirected = none := by
  refine ⟨by decide, by decide, by decide⟩

/-- C4 (confirmed): after the placement phase each cell `offsets[i]` with
`i < node_count` holds what was `offsets[i + 1]` before placement (the
exclusive end of node i's range), and the repair step — dropping the last cell
and inserting a leading zero — restores exactly `prefix_sum(degrees)`. -/
theorem placement_shift_and_repair (el : List (Nat × Nat)) (nc : Nat) (d : Direction) :
    (∀ i, i < nc →
      (placeAll d el (prefix_sum (degrees el nc d),
        List.replicate ((prefix_sum (degrees el nc d)).getD nc 0) 0)).1.getD i 0 =
        (prefix_sum (degrees el nc d)).getD (i + 1) 0) ∧
    repair (placeAll d el (prefix_sum (degrees el nc d),
        List.replicate ((prefix_sum (degrees el nc d)).getD nc 0) 0)).1 =
      prefix_sum (degrees el nc d) :=
  ⟨fun i hi => placed_offsets_getD el nc d _ i hi, repaired_offsets el nc d _⟩

/-- Witness for C4 at edge list `[(0, 1)]`, two nodes, Outgoing. -/
theorem placement_shift_and_repair_witness :
    (0 : Nat) < 2 ∧
    (placeAll .Outgoing [(0, 1)] (prefix_sum (degrees [(0, 1)] 2 .Outgoing),
      List.replicate ((prefix_sum (degrees [(0, 1)] 2 .Outgoing)).getD 2 0) 0)).1.getD 0 0 =
      (prefix_sum (degrees [(0, 1)] 2 .Outgoing)).getD 1 0 :=
  ⟨by decide, (placement_shift_and_repair [(0, 1)] 2 .Outgoing).1 0 (by decide)⟩

/-- C6 (confirmed): every CSR produced by construction has monotonically
nondecreasing offsets with `offsets[0] = 0` and
`offsets[node_count] = targets.len()`. -/
theorem offsets_invariant_of_build (el : List (Nat × Nat)) (nc : Nat) (d : Direction)
    (g : CSR) (h : csrFrom el nc d = some g) :
    List.Sorted (· ≤ ·) g.offsets ∧ g.offsets.getD 0 0 = 0 ∧
    g.offsets.getD g.node_count 0 = g.targets.length := by
  obtain ⟨ho, _⟩ := csrFrom_inv el nc d g h
  refine ⟨?_, ?_, ?_⟩
  · rw [ho]
    exact prefix_sum_sorted _
  · rw [ho]
    exact prefix_sum_zero _
  · have hnode : g.node_count = nc := by
      rw [CSR.node_count, ho, prefix_sum_length, degrees_length]
      omega
    rw [hnode, ho]
    have h2 := prefix_sum_last (degrees el nc d)
    rw [degrees_length] at h2
    rw [h2, csrFrom_targets_length el nc d g h]

/-- Witness for C6 at edge list `[(0, 1)]`, two nodes, Outgoing. -/
theorem offsets_invariant_of_build_witness :
    List.Sorted (· ≤ ·) (CSR.mk [0, 1, 1] [1]).offsets ∧
    (CSR.mk [0, 1, 1] [1]).offsets.getD 0 0 = 0 ∧
    (CSR.mk [0, 1, 1] [1]).offsets.getD (CSR.mk [0, 1, 1] [1]).node_count 0 =
      (CSR.mk [0, 1, 1] [1]).targets.length :=
  offsets_invariant_of_build [(0, 1)] 2 .Outgoing ⟨[0, 1, 1], [1]⟩ (by decide)

/-- C7 (confirmed): an Undirected build places two endpoint entries per
logical edge (`targets.len() = 2 * |edges|`), the UndirectedCSRGraph reports
`edge_count = targets.len() / 2`, hence `sum(degrees) = 2 * edge_count`; an
Outgoing or Incoming build has `sum(degrees) = edge_count`, the CSR's
target-array length. -/
theorem degree_sum_contract (el : List (Nat × Nat)) (nc : Nat)
    (hids : ∀ e ∈ el, e.1 < nc ∧ e.2 < nc) :
    (∀ g : CSR, csrFrom el nc .Undirected = some g →
      g.targets.length = 2 * el.length ∧
      (UndirectedCSRGraph.new g).edge_count = g.targets.length / 2 ∧
      (degrees el nc .Undirected).sum = 2 * (UndirectedCSRGraph.new g).edge_count) ∧
    (∀ g : CSR, csrFrom el nc .Outgoing = some g →
      (degrees el nc .Outgoing).sum = g.edge_count) ∧
    (∀ g : CSR, csrFrom el nc .Incoming = some g →
      (degrees el nc .Incoming).sum = g.edge_count) := by
  refine ⟨?_, ?_, ?_⟩
  · intro g hg
    have hlen := csrFrom_targets_length _ _ _ _ hg
    have hsum := degrees_sum_eq_ops_length el nc .Undirected hids
    rw [opsOf_length_und] at hsum
    have ht : g.targets.length = 2 * el.length := by rw [hlen, hsum]
    refine ⟨ht, rfl, ?_⟩
    show (degrees el nc .Undirected).sum = 2 * (g.edge_count / 2)
    rw [CSR.edge_count, ht, hsum, Nat.mul_div_cancel_left el.length (by omega : 0 < 2)]
  · intro g hg
    rw [CSR.edge_count, csrFrom_targets_length _ _ _ _ hg]
  · intro g hg
    rw [CSR.edge_count, csrFrom_targets_length _ _ _ _ hg]

/-- Witness for C7 at edge list `[(0, 1)]`, two nodes, Undirected. -/
theorem degree_sum_contract_witness :
    (CSR.mk [0, 1, 2] [1, 0]).targets.length =
      2 * ([((0 : Nat), (1 : Nat))] : List (Nat × Nat)).length ∧
    (UndirectedCSRGraph.new (CSR.mk [0, 1, 2] [1, 0])).edge_count =
      (CSR.mk [0, 1, 2] [1, 0]).targets.length / 2 ∧
    (degrees [(0, 1)] 2 .Undirected).sum =
      2 * (UndirectedCSRGraph.new (CSR.mk [0, 1, 2] [1, 0])).edge_count :=
  (degree_sum_contract [(0, 1)] 2 (by decide)).1 ⟨[0, 1, 2], [1, 0]⟩ (by decide)

/-- C10 (confirmed): for every constructed CSR and node below `node_count`,
`degree` and `neighbors` stay in bounds — `offsets[node]` and
`offsets[node + 1]` are valid indices, the subtraction cannot underflow, the
slice end is within `targets` — and `neighbors(node).len() = degree(node)`. -/
theorem accessor_bounds (el : List (Nat × Nat)) (nc : Nat) (d : Direction) (g : CSR)
    (node : Nat) (h : csrFrom el nc d = some g) (hn : node < g.node_count) :
    node + 1 < g.offsets.length ∧
    g.offsets.getD node 0 ≤ g.offsets.getD (node + 1) 0 ∧
    g.offsets.getD (node + 1) 0 ≤ g.targets.length ∧
    (g.neighbors node).length = g.degree node := by
  obtain ⟨ho, _⟩ := csrFrom_inv el nc d g h
  have hlen : g.offsets.length = nc + 1 := by
    rw [ho, prefix_sum_length, degrees_length]
  have hnode : g.node_count = nc := by
    rw [CSR.node_count, hlen]
    omega
  rw [hnode] at hn
  have h1 : node + 1 < g.offsets.length := by omega
  have hmono : g.offsets.getD node 0 ≤ g.offsets.getD (node + 1) 0 := by
    rw [ho]
    exact prefix_sum_mono _ node (node + 1) (by omega)
      (by rw [degrees_length]; omega)
  have hlast : g.offsets.getD (node + 1) 0 ≤ g.targets.length := by
    rw [csrFrom_targets_length el nc d g h, ho]
    have hm := prefix_sum_mono (degrees el nc d) (node + 1) nc (by omega)
      (by rw [degrees_length])
    have h2 := prefix_sum_last (degrees el nc d)
    rw [degrees_length] at h2
    rw [← h2]
    exact hm
  refine ⟨h1, hmono, hlast, ?_⟩
  rw [CSR.neighbors, CSR.degree, List.length_drop, List.length_take]
  omega

/-- Witness for C10 at edge list `[(0, 1)]`, two nodes, Outgoing, node 0. -/
theorem accessor_bounds_witness :
    (0 : Nat) + 1 < (CSR.mk [0, 1, 1] [1]).offsets.length ∧
    (CSR.mk [0, 1, 1] [1]).offsets.getD 0 0 ≤ (CSR.mk [0, 1, 1] [1]).offsets.getD 1 0 ∧
    (CSR.mk [0, 1, 1] [1]).offsets.getD 1 0 ≤ (CSR.mk [0, 1, 1] [1]).targets.length ∧
    ((CSR.mk [0, 1, 1] [1]).neighbors 0).length = (CSR.mk [0, 1, 1] [1]).degree 0 :=
  accessor_bounds [(0, 1)] 2 .Outgoing ⟨[0, 1, 1], [1]⟩ 0 (by decide) (by decide)

/-! ### Counting self-loop entries -/

theorem count_vals_out (el : List (Nat × Nat)) :
    (valuesAt 0 (opsOf .Outgoing el)).count 0 = el.count (0, 0) := by
  induction el with
  | nil => rfl
  | cons e es ih =>
    obtain ⟨s, t⟩ := e
    show (valuesAt 0 (stores .Outgoing (s, t) ++ opsOf .Outgoing es)).count 0 = _
    rw [valuesAt_append, List.count_append, ih]
    show (valuesAt 0 [(s, t)]).count 0 + _ = _
    rw [valuesAt_singleton, List.count_cons]
    by_cases hs : s = 0
    · subst hs
      by_cases ht : t = 0
      · subst ht
        simp
        omega
      · simp [List.count_cons, ht]
    · simp [hs]

theorem count_vals_in (el : List (Nat × Nat)) :
    (valuesAt 0 (opsOf .Incoming el)).count 0 = el.count (0, 0) := by
  induction el with
  | nil => rfl
  | cons e es ih =>
    obtain ⟨s, t⟩ := e
    show (valuesAt 0 (stores .Incoming (s, t) ++ opsOf .Incoming es)).count 0 = _
    rw [valuesAt_append, List.count_append, ih]
    show (valuesAt 0 [(t, s)]).count 0 + _ = _
    rw [valuesAt_singleton, List.count_cons]
    by_cases ht : t = 0
    · subst ht
      by_cases hs : s = 0
      · subst hs
        simp
        omega
      · simp [List.count_cons, hs]
    · simp [ht]

theorem count_vals_und (el : List (Nat × Nat)) :
    (valuesAt 0 (opsOf .Undirected el)).count 0 = 2 * el.count (0, 0) := by
  induction el with
  | nil => rfl
  | cons e es ih =>
    obtain ⟨s, t⟩ := e
    show (valuesAt 0 ([(s, t)] ++ ([(t, s)] ++ opsOf .Undirected es))).count 0 = _
    rw [valuesAt_append, valuesAt_append, List.count_append, List.count_append, ih,
      valuesAt_singleton, valuesAt_singleton, List.count_cons]
    by_cases hs : s = 0
    · subst hs
      by_cases ht : t = 0
      · subst ht
        simp
        omega
      · simp [List.count_cons, ht]
    · by_cases ht : t = 0
      · subst ht
        simp [List.count_cons, hs]
      · simp [hs, ht]

/-- Counting a value in `neighbors(0)` reduces to counting it among the values
placed for node 0 (sorting a chunk is a permutation). -/
theorem neighbors_zero_count (el : List (Nat × Nat)) (nc : Nat) (d : Direction)
    (g : CSR) (hids : ∀ e ∈ el, e.1 < nc ∧ e.2 < nc)
    (h : csrFrom el nc d = some g) :
    (g.neighbors 0).count 0 = (valuesAt 0 (opsOf d el)).count 0 := by
  have hncpos := csrFrom_nc_pos el nc d g h
  obtain ⟨ho, _⟩ := csrFrom_inv el nc d g h
  have hK0 : g.offsets.getD 0 0 = 0 := by
    rw [ho]
    exact prefix_sum_zero _
  have hK1 : g.offsets.getD 1 0 = cnt d el 0 := by
    rw [ho]
    have h1 := prefix_sum_succ_getD (degrees el nc d) 0
      (by rw [degrees_length]; omega)
    rw [prefix_sum_zero, degrees_getD el nc d 0 (by omega)] at h1
    simpa using h1
  have hneigh : g.neighbors 0 = slice (g.offsets.getD 0 0) (cnt d el 0) g.targets := by
    rw [CSR.neighbors, hK0, hK1, slice, List.drop_zero, List.drop_zero]
  rw [hneigh, csrFrom_content el nc d g hids h 0 (by omega)]
  by_cases h1 : 0 + 1 < nc
  · rw [if_pos h1]
    exact (List.perm_insertionSort _ _).count_eq 0
  · rw [if_neg h1]

/-- C8 (confirmed): in any valid build, each self-loop edge `(0, 0)` places two
entries (value 0) into `neighbors(0)` under Undirected and exactly one entry
under Outgoing or Incoming: the number of zeros in `neighbors(0)` is twice
(resp. once) the number of `(0, 0)` edges in the list. -/
theorem self_loop_entry_count (el : List (Nat × Nat)) (nc : Nat)
    (hids : ∀ e ∈ el, e.1 < nc ∧ e.2 < nc) :
    (∀ g : CSR, csrFrom el nc .Undirected = some g →
      (g.neighbors 0).count 0 = 2 * el.count (0, 0)) ∧
    (∀ g : CSR, csrFrom el nc .Outgoing = some g →
      (g.neighbors 0).count 0 = el.count (0, 0)) ∧
    (∀ g : CSR, csrFrom el nc .Incoming = some g →
      (g.neighbors 0).count 0 = el.count (0, 0)) := by
  refine ⟨?_, ?_, ?_⟩
  · intro g hg
    rw [neighbors_zero_count el nc _ g hids hg, count_vals_und]
  · intro g hg
    rw [neighbors_zero_count el nc _ g hids hg, count_vals_out]
  · intro g hg
    rw [neighbors_zero_count el nc _ g hids hg, count_vals_in]

/-- Witness for C8 at the single self-loop `[(0, 0)]` with one node. -/
theorem self_loop_entry_count_witness :
    ((CSR.mk [0, 2] [0, 0]).neighbors 0).count 0 =
      2 * ([((0 : Nat), (0 : Nat))] : List (Nat × Nat)).count (0, 0) :=
  (self_loop_entry_count [(0, 0)] 1 (by decide)).1 ⟨[0, 2], [0, 0]⟩ (by decide)

/-- C9 (confirmed): `reorder_by_degree` fails with the exclusivity-violation
error and leaves the wrapped graph (and the whole wrapper state) completely
unchanged whenever any other live reference to the graph's buffers exists, and
proceeds with the in-place relabeling exactly when the caller holds the sole
reference. -/
theorem reorder_exclusivity (st : Ungraph) (elapsed : Nat) :
    (st.other_refs ≠ 0 →
      (reorder_by_degree st elapsed).1 = some exclusivity_err ∧
      (reorder_by_degree st elapsed).2 = st) ∧
    (st.other_refs = 0 →
      (reorder_by_degree st elapsed).1 = none ∧
      (reorder_by_degree st elapsed).2.g = to_degree_ordered st.g) := by
  constructor
  · intro hr
    simp only [reorder_by_degree, if_neg hr]
    exact ⟨trivial, trivial⟩
  · intro hr
    simp only [reorder_by_degree, if_pos hr]
    exact ⟨trivial, trivial⟩

/-- Witness for C9: a wrapper with one outstanding neighbor view is refused
and unchanged. -/
theorem reorder_exclusivity_witness :
    (reorder_by_degree ⟨⟨[0], []⟩, 1, 5⟩ 7).1 = some exclusivity_err ∧
    (reorder_by_degree ⟨⟨[0], []⟩, 1, 5⟩ 7).2 = ⟨⟨[0], []⟩, 1, 5⟩ :=
  (reorder_exclusivity ⟨⟨[0], []⟩, 1, 5⟩ 7).1 (by decide)

end GraphCSR
